import Mathlib

/-!
Verification of the atomic-dsp-graph core against its specification.

The C++ sources are shallowly embedded: the lock-free SPSC ring buffer
(`include/ring_buffer.h`), the bump-pointer memory arena
(`include/memory_arena.h`), the processing nodes (`include/audio_nodes.h`),
the WAV reader/writer (`include/wav_io.h`) and the engine orchestration
(`AudioEngine` from the sample application).  Machine sizes are modelled as
`Nat`, 32-bit float samples as `ℚ` (every numeric fact proved here involves
only dyadic rationals on which IEEE binary arithmetic is exact), and the
by-reference out-parameters of the C++ API as explicitly returned state.
-/

namespace AtomicDsp

/-! ## Ring buffer (`include/ring_buffer.h`, `LockFreeRingBuffer<T, Size>`)

State: a slot store `buf`, a producer index `writePos` and a consumer index
`readPos`.  The C++ `std::array<T, Size>` is modelled as a total function
`Nat → T`; only indices `< N` are ever read.  The claims exercise the queue
sequentially (single producer / single consumer interleavings), so the
atomic loads/stores reduce to plain reads and writes of the two indices. -/

structure LockFreeRingBuffer (T : Type) (N : Nat) where
  buf : Nat → T
  writePos : Nat
  readPos : Nat

namespace LockFreeRingBuffer

/-- Freshly constructed queue: both positions zero, slots default-initialised. -/
def init (T : Type) [Inhabited T] (N : Nat) : LockFreeRingBuffer T N :=
  ⟨fun _ => default, 0, 0⟩

/-- `push`: fails when `(writePos + 1) % Size == readPos`; otherwise stores the
item at `writePos` and advances `writePos`. -/
def push {T : Type} {N : Nat} (s : LockFreeRingBuffer T N) (item : T) :
    Bool × LockFreeRingBuffer T N :=
  let currentWrite := s.writePos
  let nextWrite := (currentWrite + 1) % N
  if nextWrite = s.readPos then
    (false, s)
  else
    (true, ⟨fun i => if i = currentWrite then item else s.buf i, nextWrite, s.readPos⟩)

/-- `pop`: fails when `readPos == writePos`; otherwise reads the slot at
`readPos` and advances `readPos`.  The C++ bool-plus-out-parameter is
modelled as `Option`. -/
def pop {T : Type} {N : Nat} (s : LockFreeRingBuffer T N) :
    Option T × LockFreeRingBuffer T N :=
  if s.readPos = s.writePos then
    (none, s)
  else
    (some (s.buf s.readPos), ⟨s.buf, s.writePos, (s.readPos + 1) % N⟩)

/-- `isEmpty` accessor. -/
def isEmpty {T : Type} {N : Nat} (s : LockFreeRingBuffer T N) : Bool :=
  s.readPos = s.writePos

/-- Both indices are in range; established by construction and preserved by
every operation. -/
def wf {T : Type} {N : Nat} (s : LockFreeRingBuffer T N) : Prop :=
  s.writePos < N ∧ s.readPos < N

/-- Number of elements currently queued. -/
def lenQ {T : Type} {N : Nat} (s : LockFreeRingBuffer T N) : Nat :=
  (s.writePos + N - s.readPos) % N

/-- The queued elements, oldest first: slots `readPos, readPos+1, …` (mod `N`). -/
def contents {T : Type} {N : Nat} (s : LockFreeRingBuffer T N) : List T :=
  (List.range (lenQ s)).map fun k => s.buf ((s.readPos + k) % N)

end LockFreeRingBuffer

/-- Reduce `a % n` when `a < 2 * n`: the only mod shapes the ring-buffer
indices produce. -/
theorem mod_two_cases (a n : Nat) (h : a < 2 * n) :
    a % n = if a < n then a else a - n := by
  split
  · exact Nat.mod_eq_of_lt (by omega)
  · rw [Nat.mod_eq_sub_mod (by omega)]
    exact Nat.mod_eq_of_lt (by omega)

namespace LockFreeRingBuffer

variable {T : Type} {N : Nat}

theorem lenQ_lt (hN : 0 < N) (s : LockFreeRingBuffer T N) : lenQ s < N :=
  Nat.mod_lt _ hN

theorem lenQ_eq_zero_iff (hN : 0 < N) (s : LockFreeRingBuffer T N) (hw : wf s) :
    lenQ s = 0 ↔ s.readPos = s.writePos := by
  obtain ⟨h1, h2⟩ := hw
  unfold lenQ
  rw [mod_two_cases _ _ (by omega)]
  split <;> omega

theorem push_full_iff (hN : 0 < N) (s : LockFreeRingBuffer T N) (hw : wf s) :
    (s.writePos + 1) % N = s.readPos ↔ lenQ s = N - 1 := by
  obtain ⟨h1, h2⟩ := hw
  unfold lenQ
  rw [mod_two_cases (s.writePos + 1) N (by omega),
      mod_two_cases (s.writePos + N - s.readPos) N (by omega)]
  constructor
  · intro h
    split at h <;> split <;> omega
  · intro h
    split at h <;> split <;> omega

theorem push_fails (s : LockFreeRingBuffer T N) (x : T)
    (h : (s.writePos + 1) % N = s.readPos) : push s x = (false, s) := by
  simp [push, h]

theorem pop_empty (s : LockFreeRingBuffer T N)
    (h : s.readPos = s.writePos) : pop s = (none, s) := by
  simp [pop, h]

end LockFreeRingBuffer

/-- A successful `push` increments the element count. -/
theorem lenQ_push_arith (w r N : Nat) (h1 : w < N) (h2 : r < N)
    (hfull : (w + 1) % N ≠ r) :
    ((w + 1) % N + N - r) % N = (w + N - r) % N + 1 := by
  rw [mod_two_cases (w + 1) N (by omega)] at hfull ⊢
  by_cases hc : w + 1 < N
  · rw [if_pos hc] at hfull ⊢
    rw [mod_two_cases _ N (by omega), mod_two_cases (w + N - r) N (by omega)]
    split <;> split <;> omega
  · rw [if_neg hc] at hfull ⊢
    rw [mod_two_cases _ N (by omega), mod_two_cases (w + N - r) N (by omega)]
    split <;> split <;> omega

/-- Slots holding queued elements are never the write slot. -/
theorem ring_index_ne (w r N k : Nat) (h1 : w < N) (h2 : r < N)
    (hk : k < (w + N - r) % N) : (r + k) % N ≠ w := by
  rw [mod_two_cases (w + N - r) N (by omega)] at hk
  have hk2N : r + k < 2 * N := by split at hk <;> omega
  rw [mod_two_cases (r + k) N hk2N]
  split at hk <;> split <;> omega

/-- The slot one past the queued elements is exactly the write slot. -/
theorem ring_index_last (w r N : Nat) (h1 : w < N) (h2 : r < N) :
    (r + (w + N - r) % N) % N = w := by
  rw [mod_two_cases (w + N - r) N (by omega)]
  split
  · rw [mod_two_cases _ N (by omega)]
    split <;> omega
  · rw [mod_two_cases _ N (by omega)]
    split <;> omega

/-- A successful `pop` decrements the element count. -/
theorem lenQ_pop_arith (w r N : Nat) (h1 : w < N) (h2 : r < N) (h : r ≠ w) :
    (w + N - (r + 1) % N) % N = (w + N - r) % N - 1 := by
  rw [mod_two_cases (r + 1) N (by omega)]
  by_cases hc : r + 1 < N
  · rw [if_pos hc, mod_two_cases _ N (by omega), mod_two_cases (w + N - r) N (by omega)]
    split <;> split <;> omega
  · rw [if_neg hc, mod_two_cases _ N (by omega), mod_two_cases (w + N - r) N (by omega)]
    split <;> split <;> omega

namespace LockFreeRingBuffer

variable {T : Type} {N : Nat}

theorem push_succeeds (s : LockFreeRingBuffer T N) (x : T)
    (h : (s.writePos + 1) % N ≠ s.readPos) :
    push s x = (true, ⟨fun i => if i = s.writePos then x else s.buf i,
      (s.writePos + 1) % N, s.readPos⟩) := by
  simp [push, h]

theorem wf_push (hN : 0 < N) (s : LockFreeRingBuffer T N) (x : T) (hw : wf s) :
    wf (push s x).2 := by
  obtain ⟨h1, h2⟩ := hw
  by_cases hc : (s.writePos + 1) % N = s.readPos
  · simp only [push, if_pos hc]
    exact ⟨h1, h2⟩
  · simp only [push, if_neg hc]
    exact ⟨Nat.mod_lt _ hN, h2⟩

theorem contents_push (hN : 0 < N) (s : LockFreeRingBuffer T N) (x : T)
    (hw : wf s) (h : (s.writePos + 1) % N ≠ s.readPos) :
    contents (push s x).2 = contents s ++ [x] := by
  obtain ⟨h1, h2⟩ := hw
  simp only [push, if_neg h]
  unfold contents lenQ
  simp only
  rw [lenQ_push_arith s.writePos s.readPos N h1 h2 h, List.range_succ, List.map_append]
  congr 1
  · apply List.map_congr_left
    intro k hk
    rw [List.mem_range] at hk
    simp only [if_neg (ring_index_ne s.writePos s.readPos N k h1 h2 hk)]
  · simp only [List.map_cons, List.map_nil,
      if_pos (ring_index_last s.writePos s.readPos N h1 h2)]

theorem lenQ_push (hN : 0 < N) (s : LockFreeRingBuffer T N) (x : T)
    (hw : wf s) (h : (s.writePos + 1) % N ≠ s.readPos) :
    lenQ (push s x).2 = lenQ s + 1 := by
  obtain ⟨h1, h2⟩ := hw
  simp only [push, if_neg h]
  unfold lenQ
  exact lenQ_push_arith s.writePos s.readPos N h1 h2 h

theorem pop_nonempty (s : LockFreeRingBuffer T N) (h : s.readPos ≠ s.writePos) :
    pop s = (some (s.buf s.readPos),
      ⟨s.buf, s.writePos, (s.readPos + 1) % N⟩) := by
  simp [pop, h]

theorem wf_pop (hN : 0 < N) (s : LockFreeRingBuffer T N) (hw : wf s) :
    wf (pop s).2 := by
  obtain ⟨h1, h2⟩ := hw
  by_cases hc : s.readPos = s.writePos
  · simp only [pop, if_pos hc]
    exact ⟨h1, h2⟩
  · simp only [pop, if_neg hc]
    exact ⟨h1, Nat.mod_lt _ hN⟩

theorem contents_pop (hN : 0 < N) (s : LockFreeRingBuffer T N)
    (hw : wf s) (h : s.readPos ≠ s.writePos) :
    contents s = s.buf s.readPos :: contents (pop s).2 := by
  obtain ⟨h1, h2⟩ := hw
  simp only [pop, if_neg h]
  unfold contents lenQ
  simp only
  rw [lenQ_pop_arith s.writePos s.readPos N h1 h2 h]
  obtain ⟨L, hL⟩ : ∃ L, (s.writePos + N - s.readPos) % N = L + 1 := by
    refine ⟨(s.writePos + N - s.readPos) % N - 1, ?_⟩
    have hz : (s.writePos + N - s.readPos) % N ≠ 0 := by
      intro hc
      exact h ((lenQ_eq_zero_iff hN s ⟨h1, h2⟩).mp hc)
    omega
  rw [hL]
  simp only [Nat.add_sub_cancel]
  rw [List.range_succ_eq_map, List.map_cons, List.map_map]
  congr 1
  · rw [Nat.add_zero, Nat.mod_eq_of_lt h2]
  · apply List.map_congr_left
    intro k _
    simp only [Function.comp_apply, Nat.mod_add_mod, Nat.succ_eq_add_one]
    have hrk : s.readPos + (k + 1) = s.readPos + 1 + k := by omega
    rw [hrk]

theorem lenQ_pop (hN : 0 < N) (s : LockFreeRingBuffer T N)
    (hw : wf s) (h : s.readPos ≠ s.writePos) :
    lenQ (pop s).2 = lenQ s - 1 := by
  obtain ⟨h1, h2⟩ := hw
  simp only [pop, if_neg h]
  unfold lenQ
  exact lenQ_pop_arith s.writePos s.readPos N h1 h2 h

/-- Successive `push` calls, left to right; returns the result of each call
and the final queue state. -/
def pushAll : LockFreeRingBuffer T N → List T → List Bool × LockFreeRingBuffer T N
  | s, [] => ([], s)
  | s, x :: xs =>
    let r := push s x
    let rest := pushAll r.2 xs
    (r.1 :: rest.1, rest.2)

theorem pushAll_ok (hN : 0 < N) (s : LockFreeRingBuffer T N) (xs : List T)
    (hw : wf s) (hcap : lenQ s + xs.length ≤ N - 1) :
    (pushAll s xs).1 = List.replicate xs.length true ∧
      wf (pushAll s xs).2 ∧
      lenQ (pushAll s xs).2 = lenQ s + xs.length ∧
      contents (pushAll s xs).2 = contents s ++ xs := by
  induction xs generalizing s with
  | nil =>
    exact ⟨by simp [pushAll], by simpa [pushAll] using hw,
      by simp [pushAll], by simp [pushAll]⟩
  | cons x xs ih =>
    have hnotfull : (s.writePos + 1) % N ≠ s.readPos := by
      intro hc
      have := (push_full_iff hN s hw).mp hc
      simp only [List.length_cons] at hcap
      omega
    have hwf' := wf_push hN s x hw
    have hlen' := lenQ_push hN s x hw hnotfull
    have hct' := contents_push hN s x hw hnotfull
    have hcap' : lenQ (push s x).2 + xs.length ≤ N - 1 := by
      rw [hlen']
      simp only [List.length_cons] at hcap
      omega
    obtain ⟨ha, hb, hc, hd⟩ := ih (push s x).2 hwf' hcap'
    have hfst : (push s x).1 = true := by rw [push_succeeds s x hnotfull]
    refine ⟨?_, hb, ?_, ?_⟩
    · simp only [pushAll, List.length_cons, List.replicate_succ, hfst, ha]
    · simp only [pushAll, hc, hlen', List.length_cons]
      omega
    · simp only [pushAll, hd, hct', List.append_assoc, List.cons_append,
        List.nil_append]

/-- Operations of a single-producer/single-consumer interleaving. -/
inductive QOp (T : Type) where
  | pushOp (x : T)
  | popOp

/-- Run a sequence of queue operations; returns the final state, the values
whose push succeeded (in call order) and the values popped (in call order). -/
def runOps : LockFreeRingBuffer T N → List (QOp T) →
    LockFreeRingBuffer T N × List T × List T
  | s, [] => (s, [], [])
  | s, QOp.pushOp x :: ops =>
    let r := push s x
    let rest := runOps r.2 ops
    (rest.1, if r.1 then x :: rest.2.1 else rest.2.1, rest.2.2)
  | s, QOp.popOp :: ops =>
    let r := pop s
    let rest := runOps r.2 ops
    (rest.1, rest.2.1,
      match r.1 with
      | some v => v :: rest.2.2
      | none => rest.2.2)

/-- FIFO invariant: what was in the queue plus what gets pushed equals what
gets popped plus what remains, all in order. -/
theorem runOps_fifo (hN : 0 < N) (s : LockFreeRingBuffer T N)
    (ops : List (QOp T)) (hw : wf s) :
    contents s ++ (runOps s ops).2.1 =
      (runOps s ops).2.2 ++ contents (runOps s ops).1 ∧
      wf (runOps s ops).1 := by
  induction ops generalizing s with
  | nil => simpa [runOps] using hw
  | cons op ops ih =>
    cases op with
    | pushOp x =>
      by_cases hc : (s.writePos + 1) % N = s.readPos
      · have hpush := push_fails s x hc
        obtain ⟨h1, h2⟩ := ih s hw
        refine ⟨?_, ?_⟩
        · simp only [runOps, hpush]
          simpa using h1
        · simp only [runOps, hpush]
          exact h2
      · have hpush := push_succeeds s x hc
        obtain ⟨h1, h2⟩ := ih (push s x).2 (wf_push hN s x hw)
        have hct := contents_push hN s x hw hc
        refine ⟨?_, ?_⟩
        · simp only [runOps]
          rw [show (push s x).1 = true by rw [hpush]]
          simp only [if_true]
          rw [hct] at h1
          simpa using h1
        · simp only [runOps]
          exact h2
    | popOp =>
      by_cases hc : s.readPos = s.writePos
      · have hpop := pop_empty s hc
        obtain ⟨h1, h2⟩ := ih s hw
        have hcte : contents s = [] := by
          unfold contents
          rw [(lenQ_eq_zero_iff hN s hw).mpr hc]
          simp
        refine ⟨?_, ?_⟩
        · simp only [runOps, hpop]
          simpa [hcte] using h1
        · simp only [runOps, hpop]
          exact h2
      · have hpop := pop_nonempty s hc
        obtain ⟨h1, h2⟩ := ih (pop s).2 (wf_pop hN s hw)
        have hct := contents_pop hN s hw hc
        refine ⟨?_, ?_⟩
        · simp only [runOps]
          rw [show (pop s).1 = some (s.buf s.readPos) by rw [hpop]]
          rw [hct]
          simpa using h1
        · simp only [runOps]
          exact h2

theorem contents_init (hN : 0 < N) [Inhabited T] :
    contents (init T N) = [] := by
  unfold contents lenQ init
  simp

theorem lenQ_init [Inhabited T] : lenQ (init T N) = 0 := by
  unfold lenQ init
  simp

theorem wf_init (hN : 0 < N) [Inhabited T] : wf (init T N) :=
  ⟨hN, hN⟩

end LockFreeRingBuffer

open LockFreeRingBuffer in
/-- C1: for every `LockFreeRingBuffer<T, N>` starting empty and used
sequentially, exactly `N-1` successive pushes return `true` and the `N`-th
returns `false` leaving the queue unchanged; pop on an empty queue returns
`false` without modifying state; after one successful pop one more push
succeeds; and every single-producer/single-consumer interleaving dequeues
elements in enqueue order (the popped sequence is a prefix of the pushed
sequence, the rest remaining queued). -/
theorem ringBuffer_spsc_correct (T : Type) [Inhabited T] (N : Nat) (hN : 0 < N) :
    (∀ xs : List T, xs.length = N - 1 →
      (pushAll (init T N) xs).1 = List.replicate (N - 1) true ∧
      ∀ y : T, push (pushAll (init T N) xs).2 y =
        (false, (pushAll (init T N) xs).2)) ∧
    (∀ s : LockFreeRingBuffer T N, s.readPos = s.writePos → pop s = (none, s)) ∧
    (∀ (s : LockFreeRingBuffer T N) (v : T) (s' : LockFreeRingBuffer T N) (y : T),
      wf s → pop s = (some v, s') → (push s' y).1 = true) ∧
    (∀ ops : List (QOp T),
      (runOps (init T N) ops).2.1 =
        (runOps (init T N) ops).2.2 ++ contents (runOps (init T N) ops).1) := by
  refine ⟨?_, ?_, ?_, ?_⟩
  · intro xs hxs
    have hcap : lenQ (init T N) + xs.length ≤ N - 1 := by
      rw [lenQ_init, hxs]
      omega
    obtain ⟨ha, hb, hc, _⟩ := pushAll_ok hN (init T N) xs (wf_init hN) hcap
    have hfull : ((pushAll (init T N) xs).2.writePos + 1) % N =
        (pushAll (init T N) xs).2.readPos := by
      apply (push_full_iff hN _ hb).mpr
      rw [hc, lenQ_init, hxs]
      omega
    exact ⟨by rw [ha, hxs], fun y => push_fails _ y hfull⟩
  · intro s hs
    exact pop_empty s hs
  · intro s v s' y hw hpop
    have hne : s.readPos ≠ s.writePos := by
      intro hc
      rw [pop_empty s hc] at hpop
      exact Option.noConfusion (congrArg Prod.fst hpop)
    have hs' : s' = (pop s).2 := by rw [hpop]
    have hlt := lenQ_lt hN s
    have hnz : lenQ s ≠ 0 := fun hc => hne ((lenQ_eq_zero_iff hN s hw).mp hc)
    have hlen := lenQ_pop hN s hw hne
    have hwf' := wf_pop hN s hw
    have hnotfull : ((pop s).2.writePos + 1) % N ≠ (pop s).2.readPos := by
      intro hc
      have := (push_full_iff hN _ hwf').mp hc
      omega
    rw [hs', push_succeeds _ y hnotfull]
  · intro ops
    have h := runOps_fifo hN (init T N) ops (wf_init hN)
    have h1 := h.1
    rw [contents_init hN] at h1
    simpa using h1

open LockFreeRingBuffer in
/-- Witness for C1: a capacity-4 queue of naturals, pushed full, popped when
empty, and driven through a concrete producer/consumer interleaving. -/
theorem ringBuffer_spsc_correct_witness :
    (pushAll (init Nat 4) [10, 20, 30]).1 = List.replicate 3 true ∧
    (push (pushAll (init Nat 4) [10, 20, 30]).2 99).1 = false ∧
    (pop (init Nat 4)).1 = none ∧
    (runOps (init Nat 4) [QOp.pushOp 7, QOp.pushOp 8, QOp.popOp]).2.1 =
      (runOps (init Nat 4) [QOp.pushOp 7, QOp.pushOp 8, QOp.popOp]).2.2 ++
        contents (runOps (init Nat 4) [QOp.pushOp 7, QOp.pushOp 8, QOp.popOp]).1 := by
  have h := ringBuffer_spsc_correct Nat 4 (by decide)
  have h1 := h.1 [10, 20, 30] (by decide)
  refine ⟨h1.1, ?_, ?_, h.2.2.2 [QOp.pushOp 7, QOp.pushOp 8, QOp.popOp]⟩
  · rw [h1.2 99]
  · rw [h.2.1 (init Nat 4) rfl]

/-! ## Memory arena (`include/memory_arena.h`, `MemoryArena`)

A byte pool of fixed capacity with a bump offset.  Returned regions are
identified by their start offset into the pool (the C++ pointer is
`buffer.data() + offset`).  `std::bad_alloc` is modelled as a `none`
result that leaves the arena untouched — the throw happens before any
mutation of `offset`. -/

structure MemoryArena where
  capacity : Nat
  offset : Nat

namespace MemoryArena

/-- `MemoryArena(size)`: empty arena over a pool of `size` bytes. -/
def create (size : Nat) : MemoryArena := ⟨size, 0⟩

/-- Alignment padding inserted before an allocation at cursor `o`:
`(alignment - (o % alignment)) % alignment`. -/
def paddingOf (o alignment : Nat) : Nat :=
  (alignment - o % alignment) % alignment

/-- `allocate(size, alignment)`: pad the cursor up to the alignment, fail if
the padded request exceeds the pool, otherwise return the start offset of
the region and advance the cursor past it. -/
def allocate (a : MemoryArena) (size : Nat) (alignment : Nat) :
    Option Nat × MemoryArena :=
  let padding := paddingOf a.offset alignment
  if a.offset + padding + size > a.capacity then
    (none, a)
  else
    (some (a.offset + padding), ⟨a.capacity, a.offset + padding + size⟩)

/-- `reset()`: rewind the cursor, O(1), no destruction. -/
def reset (a : MemoryArena) : MemoryArena := ⟨a.capacity, 0⟩

/-- `used()` accessor. -/
def used (a : MemoryArena) : Nat := a.offset

/-- Run a sequence of `(size, alignment)` requests; arena exhaustion is
fatal, so a failing request aborts the whole run. -/
def allocSeq (a : MemoryArena) : List (Nat × Nat) → Option (List Nat × MemoryArena)
  | [] => some ([], a)
  | req :: rest =>
    match allocate a req.1 req.2 with
    | (none, _) => none
    | (some r, a') => (allocSeq a' rest).map fun pr => (r :: pr.1, pr.2)

/-- Cumulative padded size of a request sequence starting at cursor `o`. -/
def paddedTotal (o : Nat) : List (Nat × Nat) → Nat
  | [] => 0
  | req :: rest =>
    let p := paddingOf o req.2
    p + req.1 + paddedTotal (o + p + req.1) rest

end MemoryArena

/-- Bumping a cursor by its alignment padding lands on a multiple of the
alignment. -/
theorem pad_aligned (o al : Nat) (hal : 0 < al) :
    (o + (al - o % al) % al) % al = 0 := by
  by_cases h : o % al = 0
  · rw [h, Nat.sub_zero, Nat.mod_self, Nat.add_zero]
    exact h
  · have hlt : o % al < al := Nat.mod_lt _ hal
    rw [Nat.mod_eq_of_lt (by omega : al - o % al < al)]
    have hdm := Nat.div_add_mod o al
    have heq : o + (al - o % al) = al * (o / al + 1) := by
      rw [Nat.mul_add, Nat.mul_one]
      omega
    rw [heq, Nat.mul_mod_right]

namespace MemoryArena

theorem allocate_fail (a : MemoryArena) (size alignment : Nat)
    (h : a.capacity < a.offset + paddingOf a.offset alignment + size) :
    allocate a size alignment = (none, a) := by
  simp only [allocate]
  rw [if_pos (by omega)]

theorem allocate_succ (a : MemoryArena) (size alignment : Nat)
    (h : a.offset + paddingOf a.offset alignment + size ≤ a.capacity) :
    allocate a size alignment =
      (some (a.offset + paddingOf a.offset alignment),
        ⟨a.capacity, a.offset + paddingOf a.offset alignment + size⟩) := by
  simp only [allocate]
  rw [if_neg (by omega)]

theorem allocSeq_cons_fail (a : MemoryArena) (req : Nat × Nat)
    (rest : List (Nat × Nat))
    (h : a.capacity < a.offset + paddingOf a.offset req.2 + req.1) :
    allocSeq a (req :: rest) = none := by
  simp only [allocSeq]
  rw [allocate_fail a req.1 req.2 h]

theorem allocSeq_cons_succ (a : MemoryArena) (req : Nat × Nat)
    (rest : List (Nat × Nat))
    (h : a.offset + paddingOf a.offset req.2 + req.1 ≤ a.capacity) :
    allocSeq a (req :: rest) =
      (allocSeq ⟨a.capacity, a.offset + paddingOf a.offset req.2 + req.1⟩ rest).map
        fun pr => ((a.offset + paddingOf a.offset req.2) :: pr.1, pr.2) := by
  simp only [allocSeq]
  rw [allocate_succ a req.1 req.2 h]

/-- Every successful run of requests keeps the capacity, never moves the
cursor backwards, returns non-decreasing start offsets all at or past the
initial cursor, and every returned offset is a multiple of its request's
alignment. -/
theorem allocSeq_spec (a : MemoryArena) (reqs : List (Nat × Nat))
    (rs : List Nat) (a' : MemoryArena)
    (h : allocSeq a reqs = some (rs, a')) :
    List.Pairwise (· ≤ ·) rs ∧ (∀ r ∈ rs, a.offset ≤ r) ∧
      a.offset ≤ a'.offset ∧ a'.capacity = a.capacity ∧
      List.Forall₂ (fun r req => 0 < req.2 → r % req.2 = 0) rs reqs := by
  induction reqs generalizing a rs with
  | nil =>
    simp only [allocSeq, Option.some.injEq, Prod.mk.injEq] at h
    obtain ⟨h1, h2⟩ := h
    subst h1
    subst h2
    exact ⟨List.Pairwise.nil, by simp, Nat.le_refl _, rfl, List.Forall₂.nil⟩
  | cons req rest ih =>
    by_cases hfail : a.capacity < a.offset + paddingOf a.offset req.2 + req.1
    · rw [allocSeq_cons_fail a req rest hfail] at h
      exact absurd h (by simp)
    · rw [allocSeq_cons_succ a req rest (by omega)] at h
      set a1 : MemoryArena :=
        ⟨a.capacity, a.offset + paddingOf a.offset req.2 + req.1⟩ with ha1
      cases hrec : allocSeq a1 rest with
      | none =>
        rw [hrec] at h
        exact absurd h (by simp)
      | some pr =>
        rw [hrec, Option.map_some'] at h
        simp only [Option.some.injEq, Prod.mk.injEq] at h
        obtain ⟨hrs, ha2⟩ := h
        subst hrs
        subst ha2
        obtain ⟨ih1, ih2, ih3, ih4, ih5⟩ :=
          ih a1 pr.1 (by rw [hrec])
        have hpr : pr = (pr.1, pr.2) := rfl
        refine ⟨?_, ?_, ?_, ih4, ?_⟩
        · refine List.Pairwise.cons ?_ ih1
          intro r hr
          have := ih2 r hr
          simp only [ha1] at this
          omega
        · intro r hr
          rcases List.mem_cons.mp hr with hr | hr
          · omega
          · have := ih2 r hr
            simp only [ha1] at this
            omega
        · simp only [ha1] at ih3
          omega
        · refine List.Forall₂.cons ?_ ih5
          intro hal
          exact pad_aligned a.offset req.2 hal

/-- A request sequence whose cumulative padded size fits in the remaining
pool never fails. -/
theorem allocSeq_total (a : MemoryArena) (reqs : List (Nat × Nat))
    (h : a.offset + paddedTotal a.offset reqs ≤ a.capacity) :
    (allocSeq a reqs).isSome := by
  induction reqs generalizing a with
  | nil => simp [allocSeq]
  | cons req rest ih =>
    simp only [paddedTotal] at h
    have hfit : a.offset + paddingOf a.offset req.2 + req.1 ≤ a.capacity := by
      omega
    rw [allocSeq_cons_succ a req rest hfit]
    have h1 := ih ⟨a.capacity, a.offset + paddingOf a.offset req.2 + req.1⟩
      (show a.offset + paddingOf a.offset req.2 + req.1 +
        paddedTotal (a.offset + paddingOf a.offset req.2 + req.1) rest ≤
          a.capacity by omega)
    obtain ⟨pr, hpr⟩ := Option.isSome_iff_exists.mp h1
    rw [hpr]
    rfl

end MemoryArena

open MemoryArena in
/-- C2: `allocate(size, alignment)` pads the cursor by
`(alignment - offset % alignment) % alignment`, fails leaving the offset
unchanged exactly when `offset + padding + size > capacity`, and otherwise
returns the region at `offset + padding` advancing the offset past it;
returned offsets are non-decreasing and aligned, and a request sequence
whose cumulative padded size fits the capacity never fails. -/
theorem arena_allocate_correct (a : MemoryArena) (size alignment : Nat)
    (hal : 0 < alignment) :
    ((allocate a size alignment).1 = none ↔
      a.capacity < a.offset + paddingOf a.offset alignment + size) ∧
    ((allocate a size alignment).1 = none → (allocate a size alignment).2 = a) ∧
    (a.offset + paddingOf a.offset alignment + size ≤ a.capacity →
      (allocate a size alignment).1 =
        some (a.offset + paddingOf a.offset alignment) ∧
      (allocate a size alignment).2.offset =
        a.offset + paddingOf a.offset alignment + size ∧
      (a.offset + paddingOf a.offset alignment) % alignment = 0) ∧
    (∀ (reqs : List (Nat × Nat)) (rs : List Nat) (a' : MemoryArena),
      allocSeq a reqs = some (rs, a') →
        List.Pairwise (· ≤ ·) rs ∧
        List.Forall₂ (fun r req => 0 < req.2 → r % req.2 = 0) rs reqs) ∧
    (∀ reqs : List (Nat × Nat),
      a.offset + paddedTotal a.offset reqs ≤ a.capacity →
        (allocSeq a reqs).isSome) := by
  refine ⟨?_, ?_, ?_, ?_, ?_⟩
  · constructor
    · intro h
      by_contra hc
      rw [allocate_succ a size alignment (by omega)] at h
      exact Option.noConfusion h
    · intro h
      rw [allocate_fail a size alignment h]
  · intro h
    by_cases hc : a.capacity < a.offset + paddingOf a.offset alignment + size
    · rw [allocate_fail a size alignment hc]
    · rw [allocate_succ a size alignment (by omega)] at h
      exact Option.noConfusion h
  · intro h
    rw [allocate_succ a size alignment h]
    exact ⟨rfl, rfl, pad_aligned a.offset alignment hal⟩
  · intro reqs rs a' h
    obtain ⟨h1, _, _, _, h5⟩ := allocSeq_spec a reqs rs a' h
    exact ⟨h1, h5⟩
  · exact allocSeq_total a

open MemoryArena in
/-- Witness for C2: a 64-byte arena serving two padded 10-byte requests at
alignment 16; the first region lands at offset 0, the cursor at 10, and the
two-request sequence fits. -/
theorem arena_allocate_correct_witness :
    (allocate (create 64) 10 16).1 = some 0 ∧
    (allocate (create 64) 10 16).2.offset = 10 ∧
    (allocSeq (create 64) [(10, 16), (10, 16)]).isSome := by
  have h := arena_allocate_correct (create 64) 10 16 (by decide)
  have h3 := h.2.2.1 (by decide)
  refine ⟨?_, ?_, h.2.2.2.2 [(10, 16), (10, 16)] (by decide)⟩
  · rw [h3.1]
    decide
  · rw [h3.2.1]
    decide



/-! ## Processing nodes (`include/audio_nodes.h`)

An `AudioBuffer` is a non-owning view over contiguous float samples; a view
is modelled by the list of samples in its window.  Samples are modelled as
`ℚ`: every per-element operation below is a single IEEE multiply or add,
and the concrete values appearing in the claims are dyadic. -/

namespace GainNode

/-- Scalar path of `GainNode::processImpl`: `buffer.data[i] *= gain` for
every index. -/
def processScalar (gain : ℚ) (buffer : List ℚ) : List ℚ :=
  buffer.map (· * gain)

/-- One `_mm256_mul_ps` step: multiplies the 8 lanes elementwise by the
broadcast gain vector. -/
def mulLanes (gain : ℚ) (lanes : List ℚ) : List ℚ :=
  lanes.map (· * gain)

/-- AVX path of `GainNode::processImpl`: SIMD blocks of 8 over the
width-aligned prefix `(size / 8) * 8`, then a scalar loop over the
remainder. -/
def processAvx (gain : ℚ) : List ℚ → List ℚ
  | x0 :: x1 :: x2 :: x3 :: x4 :: x5 :: x6 :: x7 :: rest =>
    mulLanes gain [x0, x1, x2, x3, x4, x5, x6, x7] ++ processAvx gain rest
  | xs => xs.map (· * gain)

end GainNode

namespace GainNode

theorem processAvx_eq_scalar (gain : ℚ) (buffer : List ℚ) :
    processAvx gain buffer = processScalar gain buffer := by
  induction buffer using processAvx.induct gain with
  | case1 x0 x1 x2 x3 x4 x5 x6 x7 rest ih =>
    simp [processAvx, processScalar, mulLanes] at ih ⊢
    exact ih
  | case2 xs h =>
    rw [processAvx.eq_def]
    split
    · rename_i x0 x1 x2 x3 x4 x5 x6 x7 rest
      exact absurd rfl (h x0 x1 x2 x3 x4 x5 x6 x7 rest)
    · rfl

end GainNode

namespace MixerNode

/-- `MixerNode::mix(in1, in2, out)`: `len = min({in1.size, in2.size,
out.size})`; for `i` in `[0, len)`, `out[i] = in1[i] + in2[i]`; the
vectorized and scalar paths perform the same per-element add, modelled by
the scalar loop. -/
def mix (in1 in2 out : List ℚ) : List ℚ :=
  let len := min (min in1.length in2.length) out.length
  (List.range len).foldl (fun acc i => acc.set i (in1.getD i 0 + in2.getD i 0)) out

end MixerNode

/-- A loop writing `f i` at index `i` for `i < n` preserves the length. -/
theorem foldl_set_length (f : Nat → ℚ) (out : List ℚ) (n : Nat) :
    ((List.range n).foldl (fun acc i => acc.set i (f i)) out).length =
      out.length := by
  induction n with
  | zero => rfl
  | succ n ih =>
    rw [List.range_succ, List.foldl_append]
    simp [ih]

/-- A loop writing `f i` at index `i` for `i < n ≤ |out|` yields `f j`
below `n` and leaves `out` unchanged at and beyond `n`. -/
theorem foldl_set_getD (f : Nat → ℚ) (out : List ℚ) :
    ∀ n, n ≤ out.length → ∀ j,
      ((List.range n).foldl (fun acc i => acc.set i (f i)) out).getD j 0 =
        if j < n then f j else out.getD j 0 := by
  intro n
  induction n with
  | zero =>
    intro _ j
    simp
  | succ n ih =>
    intro hn j
    rw [List.range_succ, List.foldl_append]
    simp only [List.foldl_cons, List.foldl_nil]
    have hlen := foldl_set_length f out n
    by_cases hj : j < out.length
    · rw [List.getD_eq_getElem _ _ (by rw [List.length_set, hlen]; exact hj),
        List.getElem_set]
      by_cases hjn : n = j
      · subst hjn
        rw [if_pos rfl, if_pos (Nat.lt_succ_self n)]
      · rw [if_neg hjn,
          ← List.getD_eq_getElem _ 0 (show j < _ by rw [hlen]; exact hj),
          ih (by omega) j]
        by_cases hlt : j < n
        · rw [if_pos hlt, if_pos (by omega)]
        · rw [if_neg hlt, if_neg (by omega)]
    · rw [List.getD_eq_default _ _ (by rw [List.length_set, hlen]; omega),
        if_neg (by omega), List.getD_eq_default _ _ (by omega)]

namespace MixerNode

theorem mix_length (a b out : List ℚ) : (mix a b out).length = out.length := by
  unfold mix
  exact foldl_set_length _ out _

theorem mix_getD (a b out : List ℚ) (j : Nat) :
    (mix a b out).getD j 0 =
      if j < min (min a.length b.length) out.length then a.getD j 0 + b.getD j 0
      else out.getD j 0 := by
  unfold mix
  exact foldl_set_getD _ out _ (by omega) j

end MixerNode

open MixerNode in
/-- C7: `MixerNode::mix` writes `out[i] = a[i] + b[i]` for every index below
`min(len(a), len(b), len(out))` and leaves every element of `out` at or
beyond that bound (and the length of `out`) unchanged. -/
theorem mixer_mix_correct (a b out : List ℚ) :
    (mix a b out).length = out.length ∧
    ∀ i : Nat,
      (i < min (min a.length b.length) out.length →
        (mix a b out).getD i 0 = a.getD i 0 + b.getD i 0) ∧
      (min (min a.length b.length) out.length ≤ i →
        (mix a b out).getD i 0 = out.getD i 0) := by
  refine ⟨mix_length a b out, fun i => ⟨fun hi => ?_, fun hi => ?_⟩⟩
  · rw [mix_getD, if_pos hi]
  · rw [mix_getD, if_neg (by omega)]

open MixerNode in
/-- Witness for C7: mixing a 2-sample and a 3-sample view into a 3-slot
destination adds below index 2 and leaves index 2 untouched. -/
theorem mixer_mix_correct_witness :
    (mix [1, 2] [10, 20, 30] [5, 5, 5]).length = 3 ∧
    (mix [1, 2] [10, 20, 30] [5, 5, 5]).getD 0 0 = 11 ∧
    (mix [1, 2] [10, 20, 30] [5, 5, 5]).getD 2 0 = 5 := by
  have h := mixer_mix_correct [1, 2] [10, 20, 30] [5, 5, 5]
  refine ⟨by rw [h.1]; rfl, ?_, ?_⟩
  · rw [(h.2 0).1 (by decide)]
    norm_num [List.getD_cons_zero, List.getD_cons_succ]
  · rw [(h.2 2).2 (by decide)]
    norm_num [List.getD_cons_zero, List.getD_cons_succ]

open GainNode in
/-- C8: the vectorized path of `GainNode::processImpl` (SIMD blocks of 8
over the aligned prefix plus a scalar remainder loop) computes exactly the
same buffer as the pure scalar loop, each element being
`input[i] * factor`; over the dyadic rationals modelling the exact IEEE
per-lane multiply the two paths agree identically, in particular within
any epsilon. -/
theorem gain_vectorized_scalar_agree (gain : ℚ) (buffer : List ℚ) :
    processAvx gain buffer = processScalar gain buffer ∧
    ∀ i, i < buffer.length →
      (processAvx gain buffer).getD i 0 = buffer.getD i 0 * gain := by
  refine ⟨processAvx_eq_scalar gain buffer, fun i hi => ?_⟩
  rw [processAvx_eq_scalar, processScalar,
    List.getD_eq_getElem _ _ (by simpa using hi), List.getElem_map,
    List.getD_eq_getElem _ _ hi]

open GainNode in
/-- Witness for C8: a 9-sample buffer (one full SIMD block plus a scalar
remainder) at gain 2. -/
theorem gain_vectorized_scalar_agree_witness :
    processAvx 2 [1, 2, 3, 4, 5, 6, 7, 8, 9] =
      processScalar 2 [1, 2, 3, 4, 5, 6, 7, 8, 9] ∧
    (processAvx 2 [1, 2, 3, 4, 5, 6, 7, 8, 9]).getD 8 0 = 18 := by
  have h := gain_vectorized_scalar_agree 2 [1, 2, 3, 4, 5, 6, 7, 8, 9]
  refine ⟨h.1, ?_⟩
  rw [h.2 8 (by decide)]
  norm_num [List.getD_cons_zero, List.getD_cons_succ]

/-- `FadeNode`: ramp duration in samples, advancing position counter
(`currentSample`, a float counter in the source, modelled exactly by `ℚ`)
and the fade direction flag. -/
structure FadeNode where
  duration : ℚ
  currentSample : ℚ
  fadeIn : Bool

namespace FadeNode

/-- `FadeNode(durationSamples, in)`: position starts at 0. -/
def create (durationSamples : ℚ) (fadeIn : Bool) : FadeNode :=
  ⟨durationSamples, 0, fadeIn⟩

/-- Per-sample factor:
`fadeIn ? min(currentSample/duration, 1) : max(1 - currentSample/duration, 0)`. -/
def factor (n : FadeNode) : ℚ :=
  if n.fadeIn then min (n.currentSample / n.duration) 1
  else max (1 - n.currentSample / n.duration) 0

/-- `FadeNode::processImpl(buffer)`: multiply each sample in turn by the
current factor and increment the position. -/
def processImpl : FadeNode → List ℚ → FadeNode × List ℚ
  | n, [] => (n, [])
  | n, x :: xs =>
    let rest := processImpl ⟨n.duration, n.currentSample + 1, n.fadeIn⟩ xs
    (rest.1, x * factor n :: rest.2)

/-- `reset()`: position back to 0. -/
def reset (n : FadeNode) : FadeNode := ⟨n.duration, 0, n.fadeIn⟩

/-- Closed form of a fade-out pass starting at position `p0`: sample `i` is
scaled by `max (1 - (p0 + i)/D) 0`, and the position advances by the buffer
length (persisting into the next call). -/
theorem processImpl_fadeOut (D p0 : ℚ) (xs : List ℚ) :
    (processImpl ⟨D, p0, false⟩ xs).2 =
      (List.range xs.length).map
        (fun i => xs.getD i 0 * max (1 - (p0 + i) / D) 0) ∧
    (processImpl ⟨D, p0, false⟩ xs).1 = ⟨D, p0 + xs.length, false⟩ := by
  induction xs generalizing p0 with
  | nil => simp [processImpl]
  | cons x xs ih =>
    obtain ⟨ih1, ih2⟩ := ih (p0 + 1)
    constructor
    · simp only [processImpl]
      rw [ih1, List.length_cons, List.range_succ_eq_map, List.map_cons,
        List.map_map]
      congr 1
      · simp [factor]
      · apply List.map_congr_left
        intro k _
        simp only [Function.comp_apply, List.getD_cons_succ, Nat.cast_succ]
        have harg : p0 + 1 + (k : ℚ) = p0 + ((k : ℚ) + 1) := by ring
        rw [harg]
    · simp only [processImpl]
      rw [ih2, List.length_cons]
      congr 1
      push_cast
      ring

end FadeNode

open FadeNode in
/-- C6: a fade-out node of duration `D` multiplies the sample at position
`p` by `max (1 - p/D, 0)`, with the position persisting across calls until
`reset()` zeroes it; the factor is exactly 0 at position `D` and stays 0
for all later positions; fading out over 4 samples on an all-ones buffer of
length 5 yields `[1, 0.75, 0.5, 0.25, 0]`. -/
theorem fade_out_correct (D : ℚ) (hD : 0 < D) :
    (∀ (p0 : ℚ) (xs : List ℚ),
      (processImpl ⟨D, p0, false⟩ xs).2 =
        (List.range xs.length).map
          (fun i => xs.getD i 0 * max (1 - (p0 + i) / D) 0) ∧
      (processImpl ⟨D, p0, false⟩ xs).1 = ⟨D, p0 + xs.length, false⟩) ∧
    (∀ p : ℚ, D ≤ p → factor ⟨D, p, false⟩ = 0) ∧
    factor ⟨D, D, false⟩ = 0 ∧
    (∀ n : FadeNode, (reset n).currentSample = 0) ∧
    (processImpl ⟨4, 0, false⟩ [1, 1, 1, 1, 1]).2 =
      [1, 3/4, 1/2, 1/4, 0] := by
  have hfac : ∀ p : ℚ, D ≤ p → factor ⟨D, p, false⟩ = 0 := by
    intro p hp
    simp only [factor, Bool.false_eq_true, if_false]
    rw [max_eq_right]
    have h1 : 1 ≤ p / D := (one_le_div hD).mpr hp
    linarith
  refine ⟨processImpl_fadeOut D, hfac, hfac D le_rfl, fun n => rfl, ?_⟩
  norm_num [processImpl, factor, max_def]

open FadeNode in
/-- Witness for C6: duration 4 — the worked example, the exact zero at
position 4, and the clamp at position 9. -/
theorem fade_out_correct_witness :
    (processImpl ⟨4, 0, false⟩ [1, 1, 1, 1, 1]).2 = [1, 3/4, 1/2, 1/4, 0] ∧
    factor ⟨4, 4, false⟩ = 0 ∧
    factor ⟨4, 9, false⟩ = 0 := by
  have h := fade_out_correct 4 (by norm_num)
  exact ⟨h.2.2.2.2, h.2.2.1, h.2.1 9 (by norm_num)⟩

/-! ## WAV file I/O (`include/wav_io.h`, `WavReader`)

The reader's by-reference out-parameters (`samples`, `sr`, `ch`) are made
explicit inputs and outputs.  An unreadable/missing file is `none`; a
readable file carries its parsed header and its 16-bit payload words.
Tag fields hold the four raw bytes compared by `strncmp`. -/

structure WavHeader where
  riff : List Nat
  fileSize : Nat
  wave : List Nat
  fmt : List Nat
  fmtSize : Nat
  audioFormat : Nat
  numChannels : Nat
  sampleRate : Nat
  byteRate : Nat
  blockAlign : Nat
  bitsPerSample : Nat
  data : List Nat
  dataSize : Nat

/-- The bytes of `"RIFF"`. -/
def riffTag : List Nat := [82, 73, 70, 70]

/-- The bytes of `"WAVE"`. -/
def waveTag : List Nat := [87, 65, 86, 69]

/-- The bytes of `"fmt "`. -/
def fmtTag : List Nat := [102, 109, 116, 32]

/-- The bytes of `"data"`. -/
def dataTag : List Nat := [100, 97, 116, 97]

structure WavFile where
  header : WavHeader
  raw : List Int

namespace WavReader

/-- The per-sample byte width the reader divides by:
`h.bitsPerSample / 8` (integer division, computed without validation). -/
def sampleWidth (h : WavHeader) : Nat := h.bitsPerSample / 8

/-- `std::vector::resize(n)`: truncate, or zero-extend, to `n` entries. -/
def vecResize (xs : List ℚ) (n : Nat) : List ℚ :=
  xs.take n ++ List.replicate (n - xs.length) 0

/-- `WavReader::read(filename, samples, sr, ch)`: fail on a missing file or
a bad RIFF tag; otherwise store rate and channel count, resize `samples` to
`dataSize / (bitsPerSample / 8)` entries and, exactly when
`bitsPerSample == 16`, overwrite them with the decoded payload
`raw[i] / 32768`. -/
def read (file : Option WavFile) (samples : List ℚ) (sr ch : Nat) :
    Bool × List ℚ × Nat × Nat :=
  match file with
  | none => (false, samples, sr, ch)
  | some f =>
    if f.header.riff ≠ riffTag then (false, samples, sr, ch)
    else
      let count := f.header.dataSize / sampleWidth f.header
      if f.header.bitsPerSample = 16 then
        (true, (List.range count).map (fun i => (f.raw.getD i 0 : ℚ) / 32768),
          f.header.sampleRate, f.header.numChannels)
      else
        (true, vecResize samples count,
          f.header.sampleRate, f.header.numChannels)

/-- The header `WavReader::write` emits for the given samples, rate and
channel count. -/
def writeHeader (samples : List ℚ) (sr ch : Nat) : WavHeader :=
  ⟨riffTag, 36 + samples.length * 2, waveTag, fmtTag, 16, 1, ch, sr,
    sr * (ch * 2), ch * 2, 16, dataTag, samples.length * 2⟩

/-- A failing `read` leaves all three out-parameters untouched. -/
theorem read_failure_eq (file : Option WavFile) (samples : List ℚ)
    (sr ch : Nat) (h : (read file samples sr ch).1 = false) :
    read file samples sr ch = (false, samples, sr, ch) := by
  match file with
  | none => rfl
  | some f =>
    by_cases hriff : f.header.riff = riffTag
    · exfalso
      simp only [read, hriff, ne_eq, not_true_eq_false, if_false] at h
      split at h <;> simp at h
    · simp [read, hriff]

/-- A `read` from a present file whose RIFF tag checks out succeeds and
stores the header's rate and channel count, whatever `bitsPerSample` is. -/
theorem read_riffOk (f : WavFile) (samples : List ℚ) (sr ch : Nat)
    (h : f.header.riff = riffTag) :
    (read (some f) samples sr ch).1 = true ∧
    (read (some f) samples sr ch).2.2.1 = f.header.sampleRate ∧
    (read (some f) samples sr ch).2.2.2 = f.header.numChannels := by
  simp only [read, h, ne_eq, not_true_eq_false, if_false]
  split <;> simp

end WavReader

/-- A header that passes the RIFF check but declares 0 bits per sample. -/
def zeroBitsFile : WavFile :=
  ⟨⟨riffTag, 0, waveTag, fmtTag, 16, 1, 2, 8000, 0, 0, 0, dataTag, 4⟩, []⟩

/-- C10: `WavReader::read` computes the sample count as
`dataSize / (bitsPerSample / 8)` with no validation of `bitsPerSample`:
the divisor is zero exactly when `bitsPerSample < 8`, and a file passing
the RIFF check with `bitsPerSample = 0` drives the reader past all checks
(it even returns success), so the count computation divides by zero —
well-defined only under the unstated precondition `bitsPerSample ≥ 8`. -/
theorem wav_read_division_by_zero :
    (∀ h : WavHeader, WavReader.sampleWidth h = 0 ↔ h.bitsPerSample < 8) ∧
    zeroBitsFile.header.riff = riffTag ∧
    WavReader.sampleWidth zeroBitsFile.header = 0 ∧
    (WavReader.read (some zeroBitsFile) [] 44100 2).1 = true := by
  refine ⟨fun h => ?_, rfl, rfl, rfl⟩
  unfold WavReader.sampleWidth
  exact Nat.div_eq_zero_iff (by norm_num)

/-- A header that passes the RIFF check but declares 8 bits per sample —
malformed for this 16-bit-only reader. -/
def badBitsFile : WavFile :=
  ⟨⟨riffTag, 0, waveTag, fmtTag, 16, 1, 2, 44100, 0, 0, 8, dataTag, 4⟩,
    [100, 200, 300, 400]⟩

/-- C5 counterexample: on a malformed header (RIFF tag present,
`bitsPerSample = 8 ≠ 16`) `WavReader::read` does NOT return failure — it
returns success and leaves a partial result, resizing the output vector to
4 zero-filled samples. -/
theorem wav_read_malformed_counterexample :
    (WavReader.read (some badBitsFile) [] 44100 2).1 = true ∧
    (WavReader.read (some badBitsFile) [] 44100 2).2.1 = List.replicate 4 0 ∧
    (WavReader.read (some badBitsFile) [] 44100 2).2.1 ≠ [] := by
  refine ⟨rfl, rfl, ?_⟩
  intro h
  simp [WavReader.read, WavReader.vecResize, badBitsFile, riffTag,
    WavReader.sampleWidth] at h

/-- C5 amended: `read` returns failure with no partial result exactly for
an unreadable file or a failing RIFF check; for a header that passes the
RIFF check with `bitsPerSample ≠ 16` but at least 8 (so that the count
division `dataSize / (bitsPerSample / 8)` is defined) it instead returns
success, overwriting the stored rate and channel count and resizing the
sample vector (zero-filled where extended).  Below 8 bits the count
computation divides by zero and the program's behaviour is undefined. -/
theorem wav_read_malformed_amended (samples : List ℚ) (sr ch : Nat) :
    (WavReader.read none samples sr ch = (false, samples, sr, ch)) ∧
    (∀ f : WavFile, f.header.riff ≠ riffTag →
      WavReader.read (some f) samples sr ch = (false, samples, sr, ch)) ∧
    (∀ f : WavFile, f.header.riff = riffTag →
      8 ≤ f.header.bitsPerSample → f.header.bitsPerSample ≠ 16 →
      WavReader.read (some f) samples sr ch =
        (true,
          WavReader.vecResize samples
            (f.header.dataSize / WavReader.sampleWidth f.header),
          f.header.sampleRate, f.header.numChannels)) := by
  refine ⟨rfl, fun f hf => ?_, fun f hf _hwidth hbits => ?_⟩
  · simp [WavReader.read, hf]
  · simp [WavReader.read, hf, hbits]

/-- Witness for the amended C5: the missing file, a file with a corrupt
tag, and the 8-bit file, each at concrete prior state. -/
theorem wav_read_malformed_amended_witness :
    WavReader.read none [] 44100 2 = (false, [], 44100, 2) ∧
    WavReader.read (some ⟨⟨[0, 0, 0, 0], 0, waveTag, fmtTag, 16, 1, 2, 8000,
        0, 0, 16, dataTag, 2⟩, [7]⟩) [] 44100 2 = (false, [], 44100, 2) ∧
    WavReader.read (some badBitsFile) [] 44100 2 =
      (true, WavReader.vecResize []
        (badBitsFile.header.dataSize /
          WavReader.sampleWidth badBitsFile.header),
        badBitsFile.header.sampleRate, badBitsFile.header.numChannels) := by
  have h := wav_read_malformed_amended [] 44100 2
  exact ⟨h.1, h.2.1 _ (by decide),
    h.2.2 badBitsFile (by decide) (by decide) (by decide)⟩

/-! ## Engine orchestration (`AudioEngine` from the sample application)

`loadFiles` passes `buffer1`, then `buffer2`, together with the single
`sampleRate`/`channels` pair, by reference to `WavReader::read`; `process`
applies the two gains in place and mixes into the output view;
`save` hands the output and the stored metadata to `WavReader::write`. -/

structure AudioEngine where
  arena : MemoryArena
  buffer1 : List ℚ
  buffer2 : List ℚ
  outputBuffer : List ℚ
  sampleRate : Nat
  channels : Nat

namespace AudioEngine

/-- `AudioEngine(arenaSize)`: empty buffers, `sampleRate = 44100`,
`channels = 2`. -/
def create (arenaSize : Nat) : AudioEngine :=
  ⟨MemoryArena.create arenaSize, [], [], [], 44100, 2⟩

/-- `loadFiles(f1, f2)`: read the first file into `buffer1`, bail out on
failure; read the second into `buffer2`, bail out on failure; resize the
output buffer to the longer input.  Both reads share the engine's single
`sampleRate`/`channels` pair. -/
def loadFiles (e : AudioEngine) (f1 f2 : Option WavFile) :
    Bool × AudioEngine :=
  let r1 := WavReader.read f1 e.buffer1 e.sampleRate e.channels
  let e1 : AudioEngine :=
    ⟨e.arena, r1.2.1, e.buffer2, e.outputBuffer, r1.2.2.1, r1.2.2.2⟩
  if r1.1 = false then (false, e1)
  else
    let r2 := WavReader.read f2 e1.buffer2 e1.sampleRate e1.channels
    let e2 : AudioEngine :=
      ⟨e1.arena, e1.buffer1, r2.2.1, e1.outputBuffer, r2.2.2.1, r2.2.2.2⟩
    if r2.1 = false then (false, e2)
    else
      (true, ⟨e2.arena, e2.buffer1, e2.buffer2,
        WavReader.vecResize e2.outputBuffer
          (max e2.buffer1.length e2.buffer2.length),
        e2.sampleRate, e2.channels⟩)

/-- `process(g1, g2)`: gain each input in place, then mix both into the
output view. -/
def process (e : AudioEngine) (g1 g2 : ℚ) : AudioEngine :=
  let b1 := GainNode.processScalar g1 e.buffer1
  let b2 := GainNode.processScalar g2 e.buffer2
  ⟨e.arena, b1, b2, MixerNode.mix b1 b2 e.outputBuffer, e.sampleRate,
    e.channels⟩

/-- `save(out)`: the WAV header written for the output buffer under the
engine's stored metadata. -/
def save (e : AudioEngine) : WavHeader :=
  WavReader.writeHeader e.outputBuffer e.sampleRate e.channels

end AudioEngine

/-- A 16-bit mono file at 22050 Hz holding one sample. -/
def fileA : WavFile :=
  ⟨⟨riffTag, 0, waveTag, fmtTag, 16, 1, 1, 22050, 0, 0, 16, dataTag, 2⟩,
    [16384]⟩

/-- C3 counterexample: first source reads fine, second is missing —
`loadFiles` returns `false`, but the engine state is NOT unchanged: the
stored sample rate already holds the first file's 22050 instead of the
prior 44100 (and `buffer1`/`channels` likewise hold the first file's
data). -/
theorem engine_load_partial_mutation_counterexample :
    (AudioEngine.loadFiles (AudioEngine.create 1024) (some fileA) none).1 =
      false ∧
    (AudioEngine.loadFiles (AudioEngine.create 1024) (some fileA) none).2.sampleRate
      = 22050 ∧
    (AudioEngine.create 1024).sampleRate = 44100 := by
  exact ⟨rfl, rfl, rfl⟩


/-- C3 amended: when the first read succeeds and the second fails,
`loadFiles` returns `false` and `buffer2`, `outputBuffer` and the arena are
unchanged — but `buffer1`, `sampleRate` and `channels` keep the values
stored by the first, successful, read: the load is partial. -/
theorem engine_load_second_failure (e : AudioEngine) (f1 f2 : Option WavFile)
    (h1 : (WavReader.read f1 e.buffer1 e.sampleRate e.channels).1 = true)
    (h2 : (WavReader.read f2 e.buffer2
        (WavReader.read f1 e.buffer1 e.sampleRate e.channels).2.2.1
        (WavReader.read f1 e.buffer1 e.sampleRate e.channels).2.2.2).1 =
      false) :
    AudioEngine.loadFiles e f1 f2 =
      (false,
        ⟨e.arena,
          (WavReader.read f1 e.buffer1 e.sampleRate e.channels).2.1,
          e.buffer2, e.outputBuffer,
          (WavReader.read f1 e.buffer1 e.sampleRate e.channels).2.2.1,
          (WavReader.read f1 e.buffer1 e.sampleRate e.channels).2.2.2⟩) := by
  have hr2 := WavReader.read_failure_eq f2 e.buffer2
    (WavReader.read f1 e.buffer1 e.sampleRate e.channels).2.2.1
    (WavReader.read f1 e.buffer1 e.sampleRate e.channels).2.2.2 h2
  simp only [AudioEngine.loadFiles, h1, Bool.true_eq_false, if_false, hr2]
  rw [if_pos trivial]

/-- Witness for the amended C3: first file reads fine, second is missing. -/
theorem engine_load_second_failure_witness :
    AudioEngine.loadFiles (AudioEngine.create 1024) (some fileA) none =
      (false,
        ⟨(AudioEngine.create 1024).arena,
          (WavReader.read (some fileA) (AudioEngine.create 1024).buffer1
            (AudioEngine.create 1024).sampleRate
            (AudioEngine.create 1024).channels).2.1,
          (AudioEngine.create 1024).buffer2,
          (AudioEngine.create 1024).outputBuffer,
          (WavReader.read (some fileA) (AudioEngine.create 1024).buffer1
            (AudioEngine.create 1024).sampleRate
            (AudioEngine.create 1024).channels).2.2.1,
          (WavReader.read (some fileA) (AudioEngine.create 1024).buffer1
            (AudioEngine.create 1024).sampleRate
            (AudioEngine.create 1024).channels).2.2.2⟩) :=
  engine_load_second_failure (AudioEngine.create 1024) (some fileA) none
    rfl rfl


/-- `getD` over an all-zero buffer is 0 at every index. -/
theorem getD_replicate_zero (n i : Nat) :
    (List.replicate n (0 : ℚ)).getD i 0 = 0 := by
  by_cases h : i < n
  · rw [List.getD_eq_getElem _ _ (by simpa using h), List.getElem_replicate]
  · rw [List.getD_eq_default _ _ (by simpa using h)]

/-- An engine as left by a successful load of a 1-sample and a 2-sample
input (unit samples, zeroed output sized to the longer input). -/
def engineC4 : AudioEngine :=
  ⟨MemoryArena.create 1024, [1], [1, 1], [0, 0], 44100, 2⟩

/-- C4 counterexample: with inputs of lengths 1 and 2 and both gains 1,
the output sample at index 1 (the longer input's tail) is 0 — not the
gained sample of the longer input, which is 1. -/
theorem engine_process_tail_counterexample :
    (AudioEngine.process engineC4 1 1).outputBuffer.getD 1 0 = 0 ∧
    (GainNode.processScalar 1 engineC4.buffer2).getD 1 0 = 1 ∧
    ¬((AudioEngine.process engineC4 1 1).outputBuffer.getD 1 0 =
      (GainNode.processScalar 1 engineC4.buffer2).getD 1 0) := by
  have ha : (AudioEngine.process engineC4 1 1).outputBuffer.getD 1 0 = 0 := by
    show (MixerNode.mix (GainNode.processScalar 1 engineC4.buffer1)
      (GainNode.processScalar 1 engineC4.buffer2)
      engineC4.outputBuffer).getD 1 0 = 0
    rw [MixerNode.mix_getD,
      if_neg (by simp [GainNode.processScalar, engineC4])]
    simp [engineC4]
  have hb : (GainNode.processScalar 1 engineC4.buffer2).getD 1 0 = 1 := by
    simp [GainNode.processScalar, engineC4]
  refine ⟨ha, hb, ?_⟩
  rw [ha, hb]
  norm_num

/-- C4 amended: `process` produces an output sized to the longer input, but
beyond `min(len1, len2)` the mixer leaves the destination untouched, so
those samples keep the zero left there by `loadFiles` — they are 0, not the
gained sample of the longer input. -/
theorem engine_process_tail_zero (a : MemoryArena) (b1 b2 : List ℚ)
    (g1 g2 : ℚ) (sr ch : Nat) (i : Nat)
    (hi : min b1.length b2.length ≤ i) :
    (AudioEngine.process
      ⟨a, b1, b2, List.replicate (max b1.length b2.length) 0, sr, ch⟩
      g1 g2).outputBuffer.length = max b1.length b2.length ∧
    (AudioEngine.process
      ⟨a, b1, b2, List.replicate (max b1.length b2.length) 0, sr, ch⟩
      g1 g2).outputBuffer.getD i 0 = 0 := by
  constructor
  · show (MixerNode.mix (GainNode.processScalar g1 b1)
      (GainNode.processScalar g2 b2)
      (List.replicate (max b1.length b2.length) 0)).length = _
    rw [MixerNode.mix_length, List.length_replicate]
  · show (MixerNode.mix (GainNode.processScalar g1 b1)
      (GainNode.processScalar g2 b2)
      (List.replicate (max b1.length b2.length) 0)).getD i 0 = 0
    rw [MixerNode.mix_getD, if_neg (by
      simp only [GainNode.processScalar, List.length_map,
        List.length_replicate]
      omega)]
    exact getD_replicate_zero _ _

/-- Witness for the amended C4: lengths 1 and 2, index 1. -/
theorem engine_process_tail_zero_witness :
    (AudioEngine.process
      ⟨MemoryArena.create 1, [1], [2, 3],
        List.replicate (max ([1] : List ℚ).length ([2, 3] : List ℚ).length) 0,
        44100, 2⟩ 1 1).outputBuffer.length =
      max ([1] : List ℚ).length ([2, 3] : List ℚ).length ∧
    (AudioEngine.process
      ⟨MemoryArena.create 1, [1], [2, 3],
        List.replicate (max ([1] : List ℚ).length ([2, 3] : List ℚ).length) 0,
        44100, 2⟩ 1 1).outputBuffer.getD 1 0 = 0 :=
  engine_process_tail_zero (MemoryArena.create 1) [1] [2, 3] 1 1 44100 2 1
    (by decide)


/-- A 16-bit stereo file at 48000 Hz holding one sample. -/
def fileB : WavFile :=
  ⟨⟨riffTag, 0, waveTag, fmtTag, 16, 1, 2, 48000, 0, 0, 16, dataTag, 2⟩,
    [1000]⟩

/-- C9: after a successful `loadFiles(f1, f2)` the engine's stored
`sampleRate`/`channels` are the second file's — each `WavReader::read`
overwrites the single stored pair — so `save()` writes the output header
with the second input's sample rate and channel count, whatever the first
input declared. -/
theorem engine_metadata_from_second_file (e : AudioEngine) (F1 F2 : WavFile)
    (h1 : F1.header.riff = riffTag) (h2 : F2.header.riff = riffTag) :
    (AudioEngine.loadFiles e (some F1) (some F2)).1 = true ∧
    (AudioEngine.loadFiles e (some F1) (some F2)).2.sampleRate =
      F2.header.sampleRate ∧
    (AudioEngine.loadFiles e (some F1) (some F2)).2.channels =
      F2.header.numChannels ∧
    (AudioEngine.save
      (AudioEngine.loadFiles e (some F1) (some F2)).2).sampleRate =
      F2.header.sampleRate ∧
    (AudioEngine.save
      (AudioEngine.loadFiles e (some F1) (some F2)).2).numChannels =
      F2.header.numChannels := by
  obtain ⟨ha1, hb1, hc1⟩ :=
    WavReader.read_riffOk F1 e.buffer1 e.sampleRate e.channels h1
  obtain ⟨ha2, hb2, hc2⟩ := WavReader.read_riffOk F2 e.buffer2
    (WavReader.read (some F1) e.buffer1 e.sampleRate e.channels).2.2.1
    (WavReader.read (some F1) e.buffer1 e.sampleRate e.channels).2.2.2 h2
  simp only [AudioEngine.loadFiles, AudioEngine.save, WavReader.writeHeader,
    ha1, ha2, Bool.true_eq_false, if_false]
  exact ⟨trivial, hb2, hc2, hb2, hc2⟩

/-- Witness for C9: the first file is mono at 22050 Hz, the second stereo
at 48000 Hz; the loaded and saved metadata are the second file's. -/
theorem engine_metadata_from_second_file_witness :
    (AudioEngine.loadFiles (AudioEngine.create 1024)
      (some fileA) (some fileB)).1 = true ∧
    (AudioEngine.loadFiles (AudioEngine.create 1024)
      (some fileA) (some fileB)).2.sampleRate = 48000 ∧
    (AudioEngine.loadFiles (AudioEngine.create 1024)
      (some fileA) (some fileB)).2.channels = 2 ∧
    (AudioEngine.save (AudioEngine.loadFiles (AudioEngine.create 1024)
      (some fileA) (some fileB)).2).sampleRate = 48000 ∧
    fileA.header.sampleRate = 22050 ∧
    fileA.header.numChannels = 1 := by
  have h := engine_metadata_from_second_file (AudioEngine.create 1024)
    fileA fileB rfl rfl
  exact ⟨h.1, h.2.1, h.2.2.1, h.2.2.2.1, rfl, rfl⟩

end AtomicDsp
